import Mathlib

/-!
Verification of the cards-tracker balance engine.

The definitions below are a shallow embedding of `core/views.py` and
`core/models.py`, specialised to one card where the source filters its
database queries by card.  Money amounts (`Decimal` in the source) are
modelled as exact rationals; calendar days as integers; datetimes as
`(day, second-of-day)` pairs ordered lexicographically, which matches the
single-reference-timezone reading of the source.
-/

/-- A `Transaction` row (`core/models.py`), restricted to the fields the
engine reads: the event timestamp (day plus second of day), client name,
amounts and note. -/
structure Tx where
  day : Int
  tod : Int
  clientName : String
  amount_rub : Rat
  amount_usd : Rat
  note : String
deriving DecidableEq, Repr

/-- A `Withdrawal` row (`core/models.py`): primary key, owning card id,
optional precise timestamp, calendar date, the fully-withdrawn flag, the
nullable withdrawn amount, the commission and the note. -/
structure Wd where
  id : Int
  card_id : Int
  timestamp : Option (Int × Int)
  date : Int
  fully_withdrawn : Bool
  withdrawn_rub : Option Rat
  commission_rub : Rat
  note : String
deriving DecidableEq, Repr

/-- The rows of one card: its transactions and withdrawals, in the order
the store returns them before any explicit `order_by`. -/
structure Ledger where
  txs : List Tx
  wds : List Wd
deriving DecidableEq, Repr

/-- Maximum of a list of dates, `none` on the empty list; models
`order_by("-date").first()` reading only the date. -/
def maxDate : List Int → Option Int
  | [] => none
  | d :: ds =>
    match maxDate ds with
    | none => some d
    | some m => some (max d m)

/-- Date of the most recent fully-withdrawn `Withdrawal` strictly before
`day` (`_closing_before`, the `last_full` query, `core/views.py:108`). -/
def lastFullDate (L : Ledger) (day : Int) : Option Int :=
  maxDate ((L.wds.filter fun w => w.fully_withdrawn && decide (w.date < day)).map fun w => w.date)

/-- Membership of a date `d` in the reset window `[start, day)` used by
`_closing_before`: `d < day`, and `start ≤ d` when a start exists. -/
def inWindow (startOpt : Option Int) (day d : Int) : Bool :=
  decide (d < day) && (match startOpt with | none => true | some s => decide (s ≤ d))

/-- The pre-clamp value `received - withdrawn - commission` computed by
`_closing_before` (`core/views.py:103-125`): transactions dated in the
window minus withdrawn and commission of non-full withdrawals dated in the
window, where SQL `Sum` treats a NULL `withdrawn_rub` as zero. -/
def net_before (L : Ledger) (day : Int) : Rat :=
  ((L.txs.filter fun t =>
      inWindow ((lastFullDate L day).map fun d => d + 1) day t.day).map
    fun t => t.amount_rub).sum
  - ((L.wds.filter fun w =>
        !w.fully_withdrawn && inWindow ((lastFullDate L day).map fun d => d + 1) day w.date).map
      fun w => w.withdrawn_rub.getD 0).sum
  - ((L.wds.filter fun w =>
        !w.fully_withdrawn && inWindow ((lastFullDate L day).map fun d => d + 1) day w.date).map
      fun w => w.commission_rub).sum

/-- `_closing_before(card, day)` (`core/views.py:103-126`): the carried
balance, clamped at zero. -/
def closing_before (L : Ledger) (day : Int) : Rat :=
  if net_before L day > 0 then net_before L day else 0

/-- `_received_today(card, day)` (`core/views.py:129-141`): sum of the
amounts of transactions whose timestamp falls on calendar day `day`. -/
def received_today (L : Ledger) (day : Int) : Rat :=
  ((L.txs.filter fun t => t.day == day).map fun t => t.amount_rub).sum

/-- `_should_have(card, day)` (`core/views.py:145-146`). -/
def should_have (L : Ledger) (day : Int) : Rat :=
  closing_before L day + received_today L day

/-- `_withdrawal_actual_amount(wd, cache)` (`core/views.py:92-101`) with
the memoisation cache elided: on a cache miss the source computes exactly
`_should_have(card, wd.date)`, which is what the cache stores. -/
def withdrawal_actual_amount (L : Ledger) (w : Wd) : Rat :=
  if w.fully_withdrawn then should_have L w.date else w.withdrawn_rub.getD 0

theorem maxDate_le_of_mem {l : List Int} {d : Int} (hd : d ∈ l) :
    ∃ m, maxDate l = some m ∧ d ≤ m := by
  induction l with
  | nil => cases hd
  | cons a l ih =>
    rcases List.mem_cons.mp hd with h | h
    · subst h
      cases hml : maxDate l with
      | none => exact ⟨d, by simp [maxDate, hml], le_refl d⟩
      | some m => exact ⟨max d m, by simp [maxDate, hml], le_max_left d m⟩
    · obtain ⟨m, hm, hle⟩ := ih h
      exact ⟨max a m, by simp [maxDate, hm], le_trans hle (le_max_right a m)⟩

theorem maxDate_mem {l : List Int} {m : Int} (h : maxDate l = some m) : m ∈ l := by
  induction l generalizing m with
  | nil => simp [maxDate] at h
  | cons a l ih =>
    cases hml : maxDate l with
    | none =>
      rw [maxDate, hml] at h
      exact List.mem_cons.mpr (Or.inl (Option.some_injective _ h).symm)
    | some m' =>
      rw [maxDate, hml] at h
      have : m = max a m' := (Option.some_injective _ h).symm
      rcases max_choice a m' with hc | hc

      · exact List.mem_cons.mpr (Or.inl (this.trans hc))
      · exact List.mem_cons.mpr (Or.inr (ih (by rw [hml, this, hc])))

theorem clamp_eq_max (x : Rat) : (if x > 0 then x else 0) = max 0 x := by
  rcases le_or_lt x 0 with hle | hlt
  · rw [if_neg (not_lt.mpr hle), max_eq_left hle]
  · rw [if_pos hlt, max_eq_right hlt.le]

/-- C1: a fully-withdrawn row on day `D` makes the reset window for `D + 1`
empty, so the carried balance into `D + 1` is zero, whatever the
transactions and the stored `withdrawn_rub` of that row are. -/
theorem full_withdrawal_resets_carry (L : Ledger) (D : Int)
    (h : ∃ w ∈ L.wds, w.fully_withdrawn = true ∧ w.date = D) :
    closing_before L (D + 1) = 0 := by
  obtain ⟨w, hw, hfull, hdate⟩ := h
  have hmemD : D ∈ (L.wds.filter fun w => w.fully_withdrawn && decide (w.date < D + 1)).map
      fun w => w.date := by
    refine List.mem_map.mpr ⟨w, List.mem_filter.mpr ⟨hw, ?_⟩, hdate⟩
    simp [hfull, hdate]
  obtain ⟨m, hm, hDm⟩ := maxDate_le_of_mem hmemD
  have hmlt : m < D + 1 := by
    obtain ⟨w', hw', hd'⟩ := List.mem_map.mp (maxDate_mem hm)
    have hmf := (List.mem_filter.mp hw').2
    simp only [Bool.and_eq_true, decide_eq_true_eq] at hmf
    omega
  have hmD : m = D := le_antisymm (by omega) hDm
  have hlf : lastFullDate L (D + 1) = some D := by
    rw [lastFullDate, hm, hmD]
  have hnet : net_before L (D + 1) = 0 := by
    unfold net_before
    rw [hlf]
    have hwin : ∀ d : Int, inWindow (some (D + 1)) (D + 1) d = false := by
      intro d
      simp only [inWindow, Bool.and_eq_false_iff, decide_eq_false_iff_not, not_lt, not_le]
      omega
    simp [hwin]
  unfold closing_before
  rw [hnet]
  norm_num

theorem full_withdrawal_resets_carry_witness :
    (∃ w ∈ (Ledger.mk [⟨1, 36000, "A", 1000, 0, ""⟩]
        [⟨1, 1, none, 1, true, none, 0, ""⟩]).wds,
      w.fully_withdrawn = true ∧ w.date = 1) ∧
    closing_before (Ledger.mk [⟨1, 36000, "A", 1000, 0, ""⟩]
        [⟨1, 1, none, 1, true, none, 0, ""⟩]) (1 + 1) = 0 :=
  ⟨⟨⟨1, 1, none, 1, true, none, 0, ""⟩, by simp, rfl, rfl⟩,
    full_withdrawal_resets_carry _ 1
      ⟨⟨1, 1, none, 1, true, none, 0, ""⟩, by simp, rfl, rfl⟩⟩

/-- C2: the effective withdrawn amount of a record is `should_have` at the
record's date when the flag is set (whatever `withdrawn_rub` stores), the
stored amount when present on a non-full record, and zero when the stored
amount is null; the function is total, so no error is possible. -/
theorem withdrawal_actual_amount_spec (L : Ledger) (w : Wd) :
    (w.fully_withdrawn = true → withdrawal_actual_amount L w = should_have L w.date) ∧
    (w.fully_withdrawn = false → w.withdrawn_rub = none → withdrawal_actual_amount L w = 0) ∧
    (∀ v : Rat, w.fully_withdrawn = false → w.withdrawn_rub = some v →
      withdrawal_actual_amount L w = v) := by
  refine ⟨fun hf => ?_, fun hf hn => ?_, fun v hf hv => ?_⟩ <;>
    simp [withdrawal_actual_amount, hf]
  · rw [hn]; rfl
  · rw [hv]; rfl

theorem withdrawal_actual_amount_spec_witness :
    withdrawal_actual_amount (Ledger.mk [⟨1, 36000, "A", 1000, 0, ""⟩] [])
        ⟨1, 1, none, 1, true, some 777, 0, ""⟩ =
      should_have (Ledger.mk [⟨1, 36000, "A", 1000, 0, ""⟩] []) 1 :=
  (withdrawal_actual_amount_spec (Ledger.mk [⟨1, 36000, "A", 1000, 0, ""⟩] [])
    ⟨1, 1, none, 1, true, some 777, 0, ""⟩).1 rfl

/-- C4 is false on the code: with no withdrawal rows at all the reset
window is all of history, so the carried balance equals the (clamped)
total received, here 1000 and not 0. -/
theorem no_withdrawals_zero_carry_counterexample :
    (Ledger.mk [⟨1, 36000, "A", 1000, 0, ""⟩] []).wds = [] ∧
    closing_before (Ledger.mk [⟨1, 36000, "A", 1000, 0, ""⟩] []) 2 ≠ 0 :=
  ⟨rfl, by norm_num [closing_before, net_before, lastFullDate, maxDate, inWindow]⟩

/-- C4 (amended): with no withdrawal rows, the carried balance into `day`
equals the clamped sum of the transaction amounts dated strictly before
`day` (zero only when nothing was received before `day`). -/
theorem no_withdrawals_carry_eq_received (L : Ledger) (day : Int) (h : L.wds = []) :
    closing_before L day =
      max 0 (((L.txs.filter fun t => decide (t.day < day)).map fun t => t.amount_rub).sum) := by
  have hlf : lastFullDate L day = none := by
    simp [lastFullDate, h, maxDate]
  have hnet : net_before L day =
      ((L.txs.filter fun t => decide (t.day < day)).map fun t => t.amount_rub).sum := by
    unfold net_before
    rw [hlf]
    simp [h, inWindow]
  unfold closing_before
  rw [hnet, clamp_eq_max]

theorem no_withdrawals_carry_eq_received_witness :
    (Ledger.mk [⟨1, 36000, "A", 1000, 0, ""⟩] []).wds = [] ∧
    closing_before (Ledger.mk [⟨1, 36000, "A", 1000, 0, ""⟩] []) 2 =
      max 0 ((((Ledger.mk [⟨1, 36000, "A", 1000, 0, ""⟩] []).txs.filter
        fun t => decide (t.day < 2)).map fun t => t.amount_rub).sum) :=
  ⟨rfl, no_withdrawals_carry_eq_received _ 2 rfl⟩

theorem closing_before_eq_max (L : Ledger) (day : Int) :
    closing_before L day = max 0 (net_before L day) := by
  unfold closing_before
  exact clamp_eq_max _

theorem inWindow_lt {so : Option Int} {day d : Int} (h : inWindow so day d = true) : d < day := by
  unfold inWindow at h
  rcases so with _ | s <;> simp_all

theorem bool_and_or (a b c : Bool) : (a && (b || c)) = ((a && b) || (a && c)) := by
  cases a <;> cases b <;> cases c <;> rfl

theorem sum_map_filter_or {α : Type} (l : List α) (f : α → Rat) (q r : α → Bool)
    (hd : ∀ x ∈ l, ¬(q x = true ∧ r x = true)) :
    ((l.filter fun x => q x || r x).map f).sum
      = ((l.filter q).map f).sum + ((l.filter r).map f).sum := by
  induction l with
  | nil => simp
  | cons a l ih =>
    have hd' : ∀ x ∈ l, ¬(q x = true ∧ r x = true) := fun x hx => hd x (List.mem_cons_of_mem a hx)
    have ha := hd a (List.mem_cons_self a l)
    have ihl := ih hd'
    cases hq : q a with
    | true =>
      cases hr : r a with
      | true => exact absurd ⟨hq, hr⟩ ha
      | false =>
        simp [List.filter_cons, hq, hr, ihl]
        ring
    | false =>
      cases hr : r a with
      | true =>
        simp [List.filter_cons, hq, hr, ihl]
        ring
      | false =>
        simp [List.filter_cons, hq, hr, ihl]

/-- C3 is false as stated: a prior over-withdrawal is clamped inside
`should_have(card, D)` but not in the single window sum for `D + 1`.
Here day 1 received 100 and recorded a partial withdrawal of 150, day 2
received 100 with the sole withdrawal row `W = 30, C = 0`; should-have on
day 2 is `S = 100`, `max 0 (S - 30 - 0) = 70`, but the carry into day 3 is
`max 0 (200 - 180) = 20`. -/
theorem partial_withdrawal_carry_counterexample :
    ((Ledger.mk [⟨1, 36000, "A", 100, 0, ""⟩, ⟨2, 36000, "A", 100, 0, ""⟩]
        [⟨1, 1, none, 1, false, some 150, 0, ""⟩, ⟨2, 1, none, 2, false, some 30, 0, ""⟩]).wds.filter
      fun w => w.date == 2) = [⟨2, 1, none, 2, false, some 30, 0, ""⟩] ∧
    closing_before (Ledger.mk [⟨1, 36000, "A", 100, 0, ""⟩, ⟨2, 36000, "A", 100, 0, ""⟩]
        [⟨1, 1, none, 1, false, some 150, 0, ""⟩, ⟨2, 1, none, 2, false, some 30, 0, ""⟩]) (2 + 1) ≠
      max 0 (should_have (Ledger.mk [⟨1, 36000, "A", 100, 0, ""⟩, ⟨2, 36000, "A", 100, 0, ""⟩]
        [⟨1, 1, none, 1, false, some 150, 0, ""⟩, ⟨2, 1, none, 2, false, some 30, 0, ""⟩]) 2
        - 30 - 0) := by
  constructor
  · rfl
  · norm_num [closing_before, net_before, lastFullDate, maxDate, inWindow, should_have,
      received_today]

/-- C3 (amended): the equality `carriedBalance(card, D+1) =
max(0, shouldHave(card, D) - W - C)` holds for the sole, non-full
withdrawal row on day `D` provided the pre-clamp net carried into `D` is
not negative (no over-withdrawal was clamped away before `D`); the
counterexample shows the clause is needed. -/
theorem partial_withdrawal_carry (L : Ledger) (D : Int) (w0 : Wd) (W : Rat)
    (hone : (L.wds.filter fun w => w.date == D) = [w0])
    (hnf : w0.fully_withdrawn = false)
    (hW : w0.withdrawn_rub = some W)
    (hnet : 0 ≤ net_before L D) :
    closing_before L (D + 1) = max 0 (should_have L D - W - w0.commission_rub) := by
  have hfilterfull : (L.wds.filter fun w => w.fully_withdrawn && decide (w.date < D + 1))
      = L.wds.filter fun w => w.fully_withdrawn && decide (w.date < D) := by
    apply List.filter_congr
    intro w hw
    by_cases hD : w.date = D
    · have hmem : w ∈ L.wds.filter fun w => w.date == D :=
        List.mem_filter.mpr ⟨hw, by simp [hD]⟩
      rw [hone] at hmem
      have hww0 : w = w0 := by simpa using hmem
      rw [hww0, hnf]
      simp
    · have hde : decide (w.date < D + 1) = decide (w.date < D) := by
        simp only [decide_eq_decide]
        omega
      rw [hde]
  have hlf : lastFullDate L (D + 1) = lastFullDate L D := by
    unfold lastFullDate
    rw [hfilterfull]
  have hstart_le : ∀ m, lastFullDate L D = some m → m + 1 ≤ D := by
    intro m hm
    obtain ⟨w', hw', hd'⟩ := List.mem_map.mp (maxDate_mem hm)
    have hmf := (List.mem_filter.mp hw').2
    simp only [Bool.and_eq_true, decide_eq_true_eq] at hmf
    omega
  have hsplit : ∀ d : Int,
      inWindow ((lastFullDate L D).map fun x => x + 1) (D + 1) d
        = (inWindow ((lastFullDate L D).map fun x => x + 1) D d || d == D) := by
    intro d
    apply Bool.eq_iff_iff.mpr
    rcases hm : lastFullDate L D with _ | m
    · simp only [Option.map_none', inWindow, Bool.and_true, Bool.or_eq_true,
        decide_eq_true_eq, beq_iff_eq]
      omega
    · have hmle := hstart_le m hm
      simp only [Option.map_some', inWindow, Bool.and_eq_true, Bool.or_eq_true,
        decide_eq_true_eq, beq_iff_eq]
      omega
  have hdtx : ∀ t : Tx, t ∈ L.txs →
      ¬((inWindow ((lastFullDate L D).map fun x => x + 1) D t.day) = true ∧
        (t.day == D) = true) := by
    rintro t _ ⟨h1, h2⟩
    have := inWindow_lt h1
    simp only [beq_iff_eq] at h2
    omega
  have hdwd : ∀ w : Wd, w ∈ L.wds →
      ¬((!w.fully_withdrawn && inWindow ((lastFullDate L D).map fun x => x + 1) D w.date) = true ∧
        (!w.fully_withdrawn && (w.date == D)) = true) := by
    rintro w _ ⟨h1, h2⟩
    simp only [Bool.and_eq_true] at h1 h2
    have := inWindow_lt h1.2
    simp only [beq_iff_eq] at h2
    omega
  have htx : (L.txs.filter fun t =>
        inWindow ((lastFullDate L D).map fun x => x + 1) (D + 1) t.day)
      = L.txs.filter fun t =>
          (inWindow ((lastFullDate L D).map fun x => x + 1) D t.day || t.day == D) :=
    List.filter_congr fun t _ => hsplit t.day
  have hwdsplit : (L.wds.filter fun w =>
        !w.fully_withdrawn && inWindow ((lastFullDate L D).map fun x => x + 1) (D + 1) w.date)
      = L.wds.filter fun w =>
          ((!w.fully_withdrawn && inWindow ((lastFullDate L D).map fun x => x + 1) D w.date)
            || (!w.fully_withdrawn && (w.date == D))) := by
    apply List.filter_congr
    intro w _
    rw [hsplit w.date]
    exact bool_and_or _ _ _
  have hfr : (L.wds.filter fun w => !w.fully_withdrawn && (w.date == D)) = [w0] := by
    have h1 : (L.wds.filter fun w => w.date == D).filter (fun w => !w.fully_withdrawn)
        = L.wds.filter fun w => !w.fully_withdrawn && (w.date == D) := by
      rw [List.filter_filter]
    rw [← h1, hone]
    simp [hnf]
  have etx : ((L.txs.filter fun t =>
        inWindow ((lastFullDate L D).map fun x => x + 1) (D + 1) t.day).map
      fun t => t.amount_rub).sum
      = ((L.txs.filter fun t =>
            inWindow ((lastFullDate L D).map fun x => x + 1) D t.day).map
          fun t => t.amount_rub).sum
        + ((L.txs.filter fun t => t.day == D).map fun t => t.amount_rub).sum := by
    rw [htx]
    exact sum_map_filter_or _ _ _ _ hdtx
  have ewdW : ((L.wds.filter fun w =>
        !w.fully_withdrawn && inWindow ((lastFullDate L D).map fun x => x + 1) (D + 1) w.date).map
      fun w => w.withdrawn_rub.getD 0).sum
      = ((L.wds.filter fun w =>
            !w.fully_withdrawn && inWindow ((lastFullDate L D).map fun x => x + 1) D w.date).map
          fun w => w.withdrawn_rub.getD 0).sum + W := by
    rw [hwdsplit, sum_map_filter_or _ _ _ _ hdwd, hfr]
    simp [hW]
  have ewdC : ((L.wds.filter fun w =>
        !w.fully_withdrawn && inWindow ((lastFullDate L D).map fun x => x + 1) (D + 1) w.date).map
      fun w => w.commission_rub).sum
      = ((L.wds.filter fun w =>
            !w.fully_withdrawn && inWindow ((lastFullDate L D).map fun x => x + 1) D w.date).map
          fun w => w.commission_rub).sum + w0.commission_rub := by
    rw [hwdsplit, sum_map_filter_or _ _ _ _ hdwd, hfr]
    simp
  have hnetD1 : net_before L (D + 1)
      = net_before L D + received_today L D - W - w0.commission_rub := by
    unfold net_before received_today
    rw [hlf, etx, ewdW, ewdC]
    ring
  rw [closing_before_eq_max, hnetD1]
  have hS : should_have L D = net_before L D + received_today L D := by
    unfold should_have
    rw [closing_before_eq_max, max_eq_right hnet]
  rw [hS]

theorem partial_withdrawal_carry_witness :
    ((Ledger.mk [⟨1, 36000, "A", 1000, 0, ""⟩]
        [⟨1, 1, none, 1, false, some 200, 50, ""⟩]).wds.filter fun w => w.date == 1)
      = [⟨1, 1, none, 1, false, some 200, 50, ""⟩] ∧
    (0 : Rat) ≤ net_before (Ledger.mk [⟨1, 36000, "A", 1000, 0, ""⟩]
        [⟨1, 1, none, 1, false, some 200, 50, ""⟩]) 1 ∧
    closing_before (Ledger.mk [⟨1, 36000, "A", 1000, 0, ""⟩]
        [⟨1, 1, none, 1, false, some 200, 50, ""⟩]) (1 + 1)
      = max 0 (should_have (Ledger.mk [⟨1, 36000, "A", 1000, 0, ""⟩]
          [⟨1, 1, none, 1, false, some 200, 50, ""⟩]) 1 - 200 - 50) :=
  ⟨rfl,
    by norm_num [net_before, lastFullDate, maxDate, inWindow],
    partial_withdrawal_carry
      (Ledger.mk [⟨1, 36000, "A", 1000, 0, ""⟩] [⟨1, 1, none, 1, false, some 200, 50, ""⟩])
      1 ⟨1, 1, none, 1, false, some 200, 50, ""⟩ 200 rfl rfl rfl
      (by norm_num [net_before, lastFullDate, maxDate, inWindow])⟩

/-- The rate computed by `Transaction.save` (`core/models.py:67-73`) from
the current amounts on every save.  The Python guard is
`self.amount_rub and self.amount_usd and self.amount_usd != 0`, where a
`Decimal` is truthy exactly when nonzero. -/
def transaction_save_rate (amount_rub amount_usd : Rat) : Option Rat :=
  if amount_rub ≠ 0 ∧ amount_usd ≠ 0 ∧ amount_usd ≠ 0 then some (amount_rub / amount_usd)
  else none

/-- C8 is false as stated: with `amount_rub = 0` and `amount_usd = 5` the
claim requires `rate = 0 / 5 = 0`, but the truthiness guard on
`amount_rub` stores `null`. -/
theorem transaction_rate_counterexample :
    (5 : Rat) ≠ 0 ∧ transaction_save_rate 0 5 ≠ some (0 / 5) := by
  constructor
  · norm_num
  · simp [transaction_save_rate]

/-- C8 (amended): on every save the stored rate is
`amount_rub / amount_usd` when both amounts are nonzero and `null` when
`amount_usd = 0` or `amount_rub = 0`; the computation is total, so a zero
divisor never raises. -/
theorem transaction_rate_spec (rub usd : Rat) :
    (usd = 0 → transaction_save_rate rub usd = none) ∧
    (rub = 0 → transaction_save_rate rub usd = none) ∧
    (rub ≠ 0 → usd ≠ 0 → transaction_save_rate rub usd = some (rub / usd)) := by
  refine ⟨fun h => ?_, fun h => ?_, fun h1 h2 => ?_⟩
  · simp [transaction_save_rate, h]
  · simp [transaction_save_rate, h]
  · simp [transaction_save_rate, h1, h2]

theorem transaction_rate_spec_witness :
    ((0 : Rat) = 0 → transaction_save_rate 10 0 = none) ∧
    ((10 : Rat) ≠ 0 → (4 : Rat) ≠ 0 → transaction_save_rate 10 4 = some (10 / 4)) :=
  ⟨(transaction_rate_spec 10 0).1, (transaction_rate_spec 10 4).2.2⟩

/-- Sort key realising `order_by("-date", "-timestamp", "-id")` as used by
`_dedupe_withdrawals_by_date`: date, then the timestamp with `NULL`
smallest, then the id. -/
def wdKey (w : Wd) : Int × Int × Int × Int × Int :=
  match w.timestamp with
  | none => (w.date, 0, 0, 0, w.id)
  | some (d, s) => (w.date, 1, d, s, w.id)

/-- Lexicographic order on the five-component sort key. -/
def keyLe (a b : Int × Int × Int × Int × Int) : Prop :=
  a.1 < b.1 ∨ (a.1 = b.1 ∧ (a.2.1 < b.2.1 ∨ (a.2.1 = b.2.1 ∧
    (a.2.2.1 < b.2.2.1 ∨ (a.2.2.1 = b.2.2.1 ∧
      (a.2.2.2.1 < b.2.2.2.1 ∨ (a.2.2.2.1 = b.2.2.2.1 ∧ a.2.2.2.2 ≤ b.2.2.2.2)))))))

instance (a b : Int × Int × Int × Int × Int) : Decidable (keyLe a b) := by
  unfold keyLe
  exact inferInstance

theorem keyLe_refl (a : Int × Int × Int × Int × Int) : keyLe a a := by
  unfold keyLe
  omega

theorem keyLe_total (a b : Int × Int × Int × Int × Int) : keyLe a b ∨ keyLe b a := by
  unfold keyLe
  omega

theorem keyLe_trans {a b c : Int × Int × Int × Int × Int}
    (h1 : keyLe a b) (h2 : keyLe b c) : keyLe a c := by
  unfold keyLe at h1 h2 ⊢
  omega

theorem keyLe_fst {a b : Int × Int × Int × Int × Int} (h : keyLe a b) : a.1 ≤ b.1 := by
  unfold keyLe at h
  omega

theorem wdKey_fst (w : Wd) : (wdKey w).1 = w.date := by
  cases h : w.timestamp with
  | none => simp [wdKey, h]
  | some p =>
    obtain ⟨d, s⟩ := p
    simp [wdKey, h]

/-- `a` precedes `b` in `order_by("-date", "-timestamp", "-id")` order. -/
def wdGe (a b : Wd) : Prop := keyLe (wdKey b) (wdKey a)

instance : DecidableRel wdGe := fun a b => by
  unfold wdGe
  exact inferInstance

instance : IsTotal Wd wdGe := ⟨fun a b => (keyLe_total (wdKey a) (wdKey b)).symm⟩

instance : IsTrans Wd wdGe := ⟨fun _ _ _ h1 h2 => keyLe_trans h2 h1⟩

/-- The `seen`-set loop of `_dedupe_withdrawals_by_date`
(`core/views.py:375-385`): keep the first row per `(card_id, date)` key. -/
def dedupeGo : List Wd → List (Int × Int) → List Wd
  | [], _ => []
  | w :: rest, seen =>
    if (w.card_id, w.date) ∈ seen then dedupeGo rest seen
    else w :: dedupeGo rest ((w.card_id, w.date) :: seen)

/-- `_dedupe_withdrawals_by_date(withdrawals)` (`core/views.py:375-385`):
iterate in `order_by("-date", "-timestamp", "-id")` order keeping the
first row of each `(card_id, date)` key, then reverse. -/
def dedupe_withdrawals_by_date (wds : List Wd) : List Wd :=
  (dedupeGo (List.insertionSort wdGe wds) []).reverse

theorem dedupeGo_sublist : ∀ (l : List Wd) (seen : List (Int × Int)),
    List.Sublist (dedupeGo l seen) l
  | [], _ => List.Sublist.refl []
  | w :: rest, seen => by
    unfold dedupeGo
    by_cases h : (w.card_id, w.date) ∈ seen
    · rw [if_pos h]
      exact (dedupeGo_sublist rest seen).cons w
    · rw [if_neg h]
      exact (dedupeGo_sublist rest _).cons₂ w

theorem mem_dedupeGo {w : Wd} : ∀ {l : List Wd} {seen : List (Int × Int)},
    w ∈ dedupeGo l seen → w ∈ l ∧ (w.card_id, w.date) ∉ seen := by
  intro l
  induction l with
  | nil => intro seen h; simp [dedupeGo] at h
  | cons x rest ih =>
    intro seen h
    unfold dedupeGo at h
    by_cases hx : (x.card_id, x.date) ∈ seen
    · rw [if_pos hx] at h
      obtain ⟨h1, h2⟩ := ih h
      exact ⟨List.mem_cons_of_mem x h1, h2⟩
    · rw [if_neg hx] at h
      rcases List.mem_cons.mp h with rfl | h
      · exact ⟨List.mem_cons_self _ _, hx⟩
      · obtain ⟨h1, h2⟩ := ih h
        exact ⟨List.mem_cons_of_mem x h1, fun hc => h2 (List.mem_cons_of_mem _ hc)⟩

theorem dedupeGo_keys_nodup : ∀ (l : List Wd) (seen : List (Int × Int)),
    ((dedupeGo l seen).map fun w => (w.card_id, w.date)).Nodup
  | [], _ => by simp [dedupeGo]
  | x :: rest, seen => by
    unfold dedupeGo
    by_cases hx : (x.card_id, x.date) ∈ seen
    · rw [if_pos hx]
      exact dedupeGo_keys_nodup rest seen
    · rw [if_neg hx]
      simp only [List.map_cons, List.nodup_cons]
      refine ⟨fun hc => ?_, dedupeGo_keys_nodup rest _⟩
      obtain ⟨w, hw, hk⟩ := List.mem_map.mp hc
      exact (mem_dedupeGo hw).2 (by rw [hk]; exact List.mem_cons_self _ _)

theorem dedupeGo_covers : ∀ (l : List Wd) (seen : List (Int × Int)), ∀ x ∈ l,
    (x.card_id, x.date) ∈ seen ∨
      ∃ w ∈ dedupeGo l seen, (w.card_id, w.date) = (x.card_id, x.date)
  | [], _, x, hx => by cases hx
  | y :: rest, seen, x, hx => by
    unfold dedupeGo
    by_cases hy : (y.card_id, y.date) ∈ seen
    · rw [if_pos hy]
      rcases List.mem_cons.mp hx with rfl | hx'
      · exact Or.inl hy
      · exact dedupeGo_covers rest seen x hx'
    · rw [if_neg hy]
      rcases List.mem_cons.mp hx with rfl | hx'
      · exact Or.inr ⟨x, List.mem_cons_self _ _, rfl⟩
      · rcases dedupeGo_covers rest ((y.card_id, y.date) :: seen) x hx' with hmem | ⟨w, hw, hk⟩
        · rcases List.mem_cons.mp hmem with he | hs
          · exact Or.inr ⟨y, List.mem_cons_self _ _, he.symm⟩
          · exact Or.inl hs
        · exact Or.inr ⟨w, List.mem_cons_of_mem y hw, hk⟩

theorem dedupeGo_max : ∀ (l : List Wd) (seen : List (Int × Int)), l.Pairwise wdGe →
    ∀ w ∈ dedupeGo l seen, ∀ x ∈ l,
      (x.card_id, x.date) = (w.card_id, w.date) → wdGe w x
  | [], _, _, w, hw => by cases hw
  | y :: rest, seen, hp, w, hw => by
    have hy1 : ∀ z ∈ rest, wdGe y z := (List.pairwise_cons.mp hp).1
    have hprest : rest.Pairwise wdGe := (List.pairwise_cons.mp hp).2
    intro x hx hk
    unfold dedupeGo at hw
    by_cases hys : (y.card_id, y.date) ∈ seen
    · rw [if_pos hys] at hw
      rcases List.mem_cons.mp hx with rfl | hx'
      · exact absurd (hk ▸ hys) (mem_dedupeGo hw).2
      · exact dedupeGo_max rest seen hprest w hw x hx' hk
    · rw [if_neg hys] at hw
      rcases List.mem_cons.mp hw with rfl | hw'
      · rcases List.mem_cons.mp hx with rfl | hx'
        · exact keyLe_refl _
        · exact hy1 x hx'
      · have hnot := (mem_dedupeGo hw').2
        rcases List.mem_cons.mp hx with rfl | hx'
        · exact absurd (by rw [hk]; exact List.mem_cons_self _ _) hnot
        · exact dedupeGo_max rest _ hprest w hw' x hx' hk

/-- C7: `_dedupe_withdrawals_by_date` keeps exactly one row per
`(card, date)` key — a row dominating every same-key input row in the
(timestamp, id) order, i.e. the latest timestamp with ties broken by the
largest id — and returns the kept rows in ascending date order. -/
theorem dedupe_spec (wds : List Wd) :
    ((dedupe_withdrawals_by_date wds).map fun w => (w.card_id, w.date)).Nodup ∧
    (∀ w ∈ dedupe_withdrawals_by_date wds, w ∈ wds) ∧
    (∀ x ∈ wds, ∃ w ∈ dedupe_withdrawals_by_date wds,
      (w.card_id, w.date) = (x.card_id, x.date)) ∧
    (∀ w ∈ dedupe_withdrawals_by_date wds, ∀ x ∈ wds,
      (x.card_id, x.date) = (w.card_id, w.date) → keyLe (wdKey x) (wdKey w)) ∧
    (dedupe_withdrawals_by_date wds).Pairwise fun a b => a.date ≤ b.date := by
  have hsorted : (List.insertionSort wdGe wds).Pairwise wdGe :=
    List.sorted_insertionSort wdGe wds
  refine ⟨?_, ?_, ?_, ?_, ?_⟩
  · unfold dedupe_withdrawals_by_date
    rw [List.map_reverse, List.nodup_reverse]
    exact dedupeGo_keys_nodup _ _
  · intro w hw
    rw [dedupe_withdrawals_by_date, List.mem_reverse] at hw
    exact (List.mem_insertionSort wdGe).mp (mem_dedupeGo hw).1
  · intro x hx
    have hx' : x ∈ List.insertionSort wdGe wds := (List.mem_insertionSort wdGe).mpr hx
    rcases dedupeGo_covers (List.insertionSort wdGe wds) [] x hx' with hmem | ⟨w, hw, hk⟩
    · cases hmem
    · exact ⟨w, by rw [dedupe_withdrawals_by_date, List.mem_reverse]; exact hw, hk⟩
  · intro w hw x hx hk
    rw [dedupe_withdrawals_by_date, List.mem_reverse] at hw
    exact dedupeGo_max (List.insertionSort wdGe wds) [] hsorted w hw x
      ((List.mem_insertionSort wdGe).mpr hx) hk
  · rw [dedupe_withdrawals_by_date, List.pairwise_reverse]
    refine List.Pairwise.imp ?_ (hsorted.sublist (dedupeGo_sublist _ _))
    intro a b h
    have hf := keyLe_fst h
    rw [wdKey_fst, wdKey_fst] at hf
    exact hf

theorem dedupe_spec_witness :
    ((dedupe_withdrawals_by_date
        [⟨1, 1, some (6, 100), 6, false, none, 0, ""⟩,
         ⟨2, 1, some (6, 200), 6, false, none, 0, ""⟩]).map
      fun w => (w.card_id, w.date)).Nodup ∧
    dedupe_withdrawals_by_date
        [⟨1, 1, some (6, 100), 6, false, none, 0, ""⟩,
         ⟨2, 1, some (6, 200), 6, false, none, 0, ""⟩]
      = [⟨2, 1, some (6, 200), 6, false, none, 0, ""⟩] :=
  ⟨(dedupe_spec
      [⟨1, 1, some (6, 100), 6, false, none, 0, ""⟩,
       ⟨2, 1, some (6, 200), 6, false, none, 0, ""⟩]).1,
    by decide⟩

/-- Timeline event kind (`"transaction"` / `"withdrawal"`). -/
inductive EvKind
  | tx
  | wd
deriving DecidableEq, Repr

/-- One `_card_events` event record, restricted to the fields the balance
walk and the filters read, plus the stamped running balance. -/
structure Event where
  kind : EvKind
  time : Int × Int
  clientName : String
  rub : Option Rat
  withdrawn : Option Rat
  commission : Option Rat
  note : String
  balance : Rat
deriving DecidableEq, Repr

/-- Order on `(day, second-of-day)` event times. -/
def timeLe (a b : Int × Int) : Prop := a.1 < b.1 ∨ (a.1 = b.1 ∧ a.2 ≤ b.2)

instance (a b : Int × Int) : Decidable (timeLe a b) := by
  unfold timeLe
  exact inferInstance

/-- The `events.sort(key=lambda e: e["time"])` order. -/
def evLe (a b : Event) : Prop := timeLe a.time b.time

instance : DecidableRel evLe := fun a b => by
  unfold evLe
  exact inferInstance

instance : IsTotal Event evLe := ⟨fun a b => by unfold evLe timeLe; omega⟩

instance : IsTrans Event evLe := ⟨fun a b c h1 h2 => by
  unfold evLe timeLe at h1 h2 ⊢
  omega⟩

/-- The `order_by("timestamp")` order on transactions. -/
def txLe (a b : Tx) : Prop := timeLe (a.day, a.tod) (b.day, b.tod)

instance : DecidableRel txLe := fun a b => by
  unfold txLe
  exact inferInstance

instance : IsTotal Tx txLe := ⟨fun a b => by unfold txLe timeLe; omega⟩

instance : IsTrans Tx txLe := ⟨fun a b c h1 h2 => by
  unfold txLe timeLe at h1 h2 ⊢
  omega⟩

def charsStartWith : List Char → List Char → Bool
  | _, [] => true
  | [], _ :: _ => false
  | c :: cs, q :: qs => c == q && charsStartWith cs qs

def strInAux (q : List Char) : List Char → Bool
  | [] => q.isEmpty
  | c :: rest => charsStartWith (c :: rest) q || strInAux q rest

/-- The Python substring test `q in s`. -/
def strIn (q s : String) : Bool := strInAux q.data s.data

/-- Python `str.lower`, character by character. -/
def lowerStr (s : String) : String := String.mk (s.data.map Char.toLower)

/-- A transaction mapped to a credit event (`core/views.py:419-433`). -/
def txEvent (t : Tx) : Event :=
  { kind := EvKind.tx, time := (t.day, t.tod), clientName := t.clientName,
    rub := some t.amount_rub, withdrawn := none, commission := none,
    note := t.note, balance := 0 }

/-- Withdrawal event time: the row timestamp, or 23:59:59 at the end of
the row's date when the timestamp is null (`core/views.py:444-446`). -/
def wdEventTime (w : Wd) : Int × Int :=
  match w.timestamp with
  | some ts => ts
  | none => (w.date, 86399)

/-- A withdrawal mapped to a debit event (`core/views.py:439-461`). -/
def wdEvent (L : Ledger) (w : Wd) : Event :=
  { kind := EvKind.wd, time := wdEventTime w, clientName := "",
    rub := none, withdrawn := some (withdrawal_actual_amount L w),
    commission := some w.commission_rub, note := w.note, balance := 0 }

/-- Date range test for the `__gte`/`__lte` filters of `_card_events` and
`_cards_with_totals`. -/
def inRangeDay (startOpt endOpt : Option Int) (d : Int) : Bool :=
  (match startOpt with | none => true | some s => decide (s ≤ d)) &&
  (match endOpt with | none => true | some e => decide (d ≤ e))

/-- `_card_balance_before(card, start_date)` (`core/views.py:388-405`):
zero without a range start, otherwise all-time received minus effective
withdrawn and commission over deduplicated withdrawals before the start. -/
def card_balance_before (L : Ledger) (startOpt : Option Int) : Rat :=
  match startOpt with
  | none => 0
  | some s =>
    ((L.txs.filter fun t => decide (t.day < s)).map fun t => t.amount_rub).sum
    - ((dedupe_withdrawals_by_date (L.wds.filter fun w => decide (w.date < s))).map
        fun w => withdrawal_actual_amount L w).sum
    - ((dedupe_withdrawals_by_date (L.wds.filter fun w => decide (w.date < s))).map
        fun w => w.commission_rub).sum

/-- The signed amount a single event applies to the running balance
(`core/views.py:483-486`). -/
def eventDelta (e : Event) : Rat :=
  match e.kind with
  | EvKind.tx => e.rub.getD 0
  | EvKind.wd => -(e.withdrawn.getD 0 + e.commission.getD 0)

/-- The running-balance walk (`core/views.py:481-487`): each event is
stamped with the balance after applying it. -/
def stampBalances (running : Rat) : List Event → List Event
  | [] => []
  | e :: rest =>
    { e with balance := running + eventDelta e } :: stampBalances (running + eventDelta e) rest

/-- The kind filter (`core/views.py:463-464`); `none` models an absent or
unrecognised `kind_filter`. -/
def kindMatches (kf : Option EvKind) (e : Event) : Bool :=
  match kf with
  | none => true
  | some k => e.kind == k

/-- The text filter (`core/views.py:466-478`): case-insensitive substring
match against the client name and note of a transaction event, or the
note of a withdrawal event; `none` models an absent or empty query. -/
def queryMatches (q : Option String) (e : Event) : Bool :=
  match q with
  | none => true
  | some qs =>
    match e.kind with
    | EvKind.tx =>
      strIn (lowerStr qs) (lowerStr e.clientName) || strIn (lowerStr qs) (lowerStr e.note)
    | EvKind.wd => strIn (lowerStr qs) (lowerStr e.note)

/-- `_card_events(card, start, end, kind_filter, query)`
(`core/views.py:408-489`): build credit events from in-range transactions
and debit events from deduplicated in-range withdrawals with a positive
effective amount or commission, apply the kind and text filters, sort by
event time, stamp the running balance seeded by `_card_balance_before`,
and return the list most-recent first. -/
def card_events (L : Ledger) (startOpt endOpt : Option Int) (kindFilter : Option EvKind)
    (query : Option String) : List Event :=
  let txEvents :=
    (List.insertionSort txLe (L.txs.filter fun t => inRangeDay startOpt endOpt t.day)).map txEvent
  let wdRows :=
    dedupe_withdrawals_by_date (L.wds.filter fun w => inRangeDay startOpt endOpt w.date)
  let wdEvents :=
    (wdRows.filter fun w =>
      !(decide (withdrawal_actual_amount L w ≤ 0) && decide (w.commission_rub ≤ 0))).map
      (wdEvent L)
  let filtered :=
    ((txEvents ++ wdEvents).filter (kindMatches kindFilter)).filter (queryMatches query)
  (stampBalances (card_balance_before L startOpt) (List.insertionSort evLe filtered)).reverse

/-- The per-card slice of `_cards_with_totals(cards, start, end)`
(`core/views.py:238-286`): `(received, withdrawn, commission, balance)`
with `balance = received - withdrawn - commission` over deduplicated
in-range withdrawals.  The source dedupes the whole multi-card collection
at once; as the dedupe key contains the card id this equals deduping the
card's own rows. -/
def card_range_totals (L : Ledger) (startOpt endOpt : Option Int) : Rat × Rat × Rat × Rat :=
  let received :=
    ((L.txs.filter fun t => inRangeDay startOpt endOpt t.day).map fun t => t.amount_rub).sum
  let wdRows :=
    dedupe_withdrawals_by_date (L.wds.filter fun w => inRangeDay startOpt endOpt w.date)
  let withdrawn := (wdRows.map fun w => withdrawal_actual_amount L w).sum
  let commission := (wdRows.map fun w => w.commission_rub).sum
  (received, withdrawn, commission, received - withdrawn - commission)

theorem eventDelta_stamp (e : Event) (b : Rat) :
    eventDelta { e with balance := b } = eventDelta e := rfl

theorem stampBalances_map_delta (r : Rat) (l : List Event) :
    (stampBalances r l).map eventDelta = l.map eventDelta := by
  induction l generalizing r with
  | nil => rfl
  | cons e rest ih => simp [stampBalances, eventDelta_stamp, ih]

theorem stampBalances_split (l : List Event) : ∀ (r : Rat) (pre post : List Event) (ev : Event),
    stampBalances r l = pre ++ ev :: post →
    ev.balance = r + (pre.map eventDelta).sum + eventDelta ev := by
  induction l with
  | nil =>
    intro r pre post ev h
    rw [stampBalances] at h
    exact absurd h (by simp)
  | cons x rest ih =>
    intro r pre post ev h
    rw [stampBalances] at h
    cases pre with
    | nil =>
      simp only [List.nil_append] at h
      injection h with h1 h2
      rw [← h1]
      simp [eventDelta_stamp]
    | cons p pre' =>
      injection h with h1 h2
      rw [ih (r + eventDelta x) pre' post ev h2, ← h1]
      simp [eventDelta_stamp]
      ring

/-- C5 is false on the code: `_card_events` applies the kind and text
filters before the balance walk, so a filter changes stamped balances.
With one 100 credit and one 50 debit, the withdrawal event is returned
with balance 50 unfiltered but with balance -50 under
`kind_filter = "withdrawal"`. -/
theorem card_events_filter_counterexample :
    ((card_events (Ledger.mk [⟨1, 100, "A", 100, 0, ""⟩]
        [⟨1, 1, some (1, 200), 1, false, some 50, 0, ""⟩]) none none (some EvKind.wd) none).map
      fun e => (e.kind, e.time, e.balance)) = [(EvKind.wd, (1, 200), -50)] ∧
    ((card_events (Ledger.mk [⟨1, 100, "A", 100, 0, ""⟩]
        [⟨1, 1, some (1, 200), 1, false, some 50, 0, ""⟩]) none none none none).map
      fun e => (e.kind, e.time, e.balance))
      = [(EvKind.wd, (1, 200), 50), (EvKind.tx, (1, 100), 100)] := by
  constructor <;>
    norm_num [card_events, stampBalances, eventDelta, txEvent, wdEvent, wdEventTime, kindMatches,
      queryMatches, inRangeDay, card_balance_before, dedupe_withdrawals_by_date, dedupeGo, wdGe,
      keyLe, wdKey, evLe, txLe, timeLe, withdrawal_actual_amount, should_have, closing_before,
      net_before, received_today, lastFullDate, maxDate, inWindow]

/-- C5 (amended): the filters are applied before the balance walk, so the
balance stamped on each returned event is the running balance over the
*filtered* chronological sequence: seed `card_balance_before` plus the
signed amounts of the returned events up to and including it.  A filter
that removes an earlier event therefore changes later stamped balances
(see the counterexample). -/
theorem card_events_balance (L : Ledger) (startOpt endOpt : Option Int)
    (kf : Option EvKind) (q : Option String) (pre post : List Event) (ev : Event)
    (h : (card_events L startOpt endOpt kf q).reverse = pre ++ ev :: post) :
    ev.balance = card_balance_before L startOpt + (pre.map eventDelta).sum + eventDelta ev := by
  simp only [card_events] at h
  rw [List.reverse_reverse] at h
  exact stampBalances_split _ _ _ _ _ h

theorem card_events_balance_witness :
    ((card_events (Ledger.mk [⟨1, 100, "A", 100, 0, ""⟩]
        [⟨1, 1, some (1, 200), 1, false, some 50, 0, ""⟩]) none none none none).reverse
      = [] ++ (⟨EvKind.tx, (1, 100), "A", some 100, none, none, "", 100⟩ : Event) ::
          [⟨EvKind.wd, (1, 200), "", none, some 50, some 0, "", 50⟩]) ∧
    (⟨EvKind.tx, (1, 100), "A", some 100, none, none, "", 100⟩ : Event).balance
      = card_balance_before (Ledger.mk [⟨1, 100, "A", 100, 0, ""⟩]
          [⟨1, 1, some (1, 200), 1, false, some 50, 0, ""⟩]) none
        + (([] : List Event).map eventDelta).sum
        + eventDelta ⟨EvKind.tx, (1, 100), "A", some 100, none, none, "", 100⟩ := by
  have h : (card_events (Ledger.mk [⟨1, 100, "A", 100, 0, ""⟩]
        [⟨1, 1, some (1, 200), 1, false, some 50, 0, ""⟩]) none none none none).reverse
      = [] ++ (⟨EvKind.tx, (1, 100), "A", some 100, none, none, "", 100⟩ : Event) ::
          [⟨EvKind.wd, (1, 200), "", none, some 50, some 0, "", 50⟩] := by
    norm_num [card_events, stampBalances, eventDelta, txEvent, wdEvent, wdEventTime, kindMatches,
      queryMatches, inRangeDay, card_balance_before, dedupe_withdrawals_by_date, dedupeGo, wdGe,
      keyLe, wdKey, evLe, txLe, timeLe, withdrawal_actual_amount, should_have, closing_before,
      net_before, received_today, lastFullDate, maxDate, inWindow]
  exact ⟨h, card_events_balance _ none none none none [] _ _ h⟩

theorem mem_dedupe {w : Wd} {wds : List Wd} (h : w ∈ dedupe_withdrawals_by_date wds) :
    w ∈ wds := by
  rw [dedupe_withdrawals_by_date, List.mem_reverse] at h
  exact (List.mem_insertionSort wdGe).mp (mem_dedupeGo h).1

theorem reverse_eq_cons {α : Type} {l r : List α} {e : α} (h : l.reverse = e :: r) :
    l = r.reverse ++ [e] := by
  rw [← List.reverse_reverse l, h, List.reverse_cons]

theorem sum_map_add {α : Type} (l : List α) (f g : α → Rat) :
    (l.map fun x => f x + g x).sum = (l.map f).sum + (l.map g).sum := by
  induction l with
  | nil => simp
  | cons a l ih =>
    simp [ih]
    ring

theorem sum_map_neg {α : Type} (l : List α) (f : α → Rat) :
    (l.map fun x => -(f x)).sum = -((l.map f).sum) := by
  induction l with
  | nil => simp
  | cons a l ih =>
    simp [ih]
    ring

theorem sum_map_filter_split {α : Type} (l : List α) (f : α → Rat) (p : α → Bool) :
    (l.map f).sum = ((l.filter p).map f).sum + ((l.filter fun x => !(p x)).map f).sum := by
  induction l with
  | nil => simp
  | cons a l ih =>
    cases hp : p a <;> simp [List.filter_cons, hp, ih] <;> ring

theorem received_today_nonneg (L : Ledger) (day : Int)
    (htx : ∀ t ∈ L.txs, 0 ≤ t.amount_rub) : 0 ≤ received_today L day := by
  apply List.sum_nonneg
  intro x hx
  obtain ⟨t, ht, rfl⟩ := List.mem_map.mp hx
  exact htx t (List.mem_filter.mp ht).1

theorem closing_before_nonneg (L : Ledger) (day : Int) : 0 ≤ closing_before L day := by
  unfold closing_before
  by_cases h : net_before L day > 0
  · rw [if_pos h]
    exact le_of_lt h
  · rw [if_neg h]

theorem should_have_nonneg (L : Ledger) (day : Int)
    (htx : ∀ t ∈ L.txs, 0 ≤ t.amount_rub) : 0 ≤ should_have L day :=
  add_nonneg (closing_before_nonneg L day) (received_today_nonneg L day htx)

theorem actual_nonneg (L : Ledger) (w : Wd)
    (htx : ∀ t ∈ L.txs, 0 ≤ t.amount_rub) (hw : 0 ≤ w.withdrawn_rub.getD 0) :
    0 ≤ withdrawal_actual_amount L w := by
  unfold withdrawal_actual_amount
  by_cases hf : w.fully_withdrawn
  · rw [if_pos hf]
    exact should_have_nonneg L w.date htx
  · rw [if_neg hf]
    exact hw

theorem filter_kindMatches_none (l : List Event) : l.filter (kindMatches none) = l :=
  List.filter_eq_self.mpr fun _ _ => rfl

theorem filter_queryMatches_none (l : List Event) : l.filter (queryMatches none) = l :=
  List.filter_eq_self.mpr fun _ _ => rfl

theorem wd_sum_keep (L : Ledger) (wdRows : List Wd)
    (hmem : ∀ w ∈ wdRows, w ∈ L.wds)
    (htx : ∀ t ∈ L.txs, 0 ≤ t.amount_rub)
    (hwdn : ∀ w ∈ L.wds, 0 ≤ w.withdrawn_rub.getD 0)
    (hcm : ∀ w ∈ L.wds, 0 ≤ w.commission_rub) :
    ((wdRows.filter fun w =>
        !(decide (withdrawal_actual_amount L w ≤ 0) && decide (w.commission_rub ≤ 0))).map
      fun w => withdrawal_actual_amount L w + w.commission_rub).sum
      = (wdRows.map fun w => withdrawal_actual_amount L w).sum
        + (wdRows.map fun w => w.commission_rub).sum := by
  rw [← sum_map_add]
  rw [sum_map_filter_split wdRows
    (fun w => withdrawal_actual_amount L w + w.commission_rub)
    (fun w => !(decide (withdrawal_actual_amount L w ≤ 0) && decide (w.commission_rub ≤ 0)))]
  have hdrop : ((wdRows.filter fun w =>
      !(!(decide (withdrawal_actual_amount L w ≤ 0) && decide (w.commission_rub ≤ 0)))).map
      fun w => withdrawal_actual_amount L w + w.commission_rub).sum = 0 := by
    apply List.sum_eq_zero
    intro x hx
    obtain ⟨w, hw, rfl⟩ := List.mem_map.mp hx
    have hwmem := List.mem_filter.mp hw
    have hwL : w ∈ L.wds := hmem w hwmem.1
    have hk := hwmem.2
    simp only [Bool.not_not, Bool.and_eq_true, decide_eq_true_eq] at hk
    have h1 : withdrawal_actual_amount L w = 0 :=
      le_antisymm hk.1 (actual_nonneg L w htx (hwdn w hwL))
    have h2 : w.commission_rub = 0 := le_antisymm hk.2 (hcm w hwL)
    rw [h1, h2, add_zero]
  rw [hdrop, add_zero]

/-- C6: with no range start and no filters, the balance stamped on the
chronologically last timeline event (the head of the most-recent-first
returned list) equals the `balance` component of the per-card range
totals over the same end bound: total received minus total effective
withdrawn minus total commission over deduplicated withdrawals.  The
timeline drops withdrawal rows whose effective amount and commission are
both non-positive; under nonnegative money amounts those rows contribute
exactly zero to the totals, so the two sides agree. -/
theorem timeline_last_balance_eq_range_totals (L : Ledger) (endOpt : Option Int)
    (ev : Event) (rest : List Event)
    (htx : ∀ t ∈ L.txs, 0 ≤ t.amount_rub)
    (hwdn : ∀ w ∈ L.wds, 0 ≤ w.withdrawn_rub.getD 0)
    (hcm : ∀ w ∈ L.wds, 0 ≤ w.commission_rub)
    (hhead : card_events L none endOpt none none = ev :: rest) :
    ev.balance = (card_range_totals L none endOpt).2.2.2 := by
  simp only [card_events, filter_kindMatches_none, filter_queryMatches_none] at hhead
  have hstamp := reverse_eq_cons hhead
  have hsplit := stampBalances_split _ _ _ _ _ hstamp
  have hmapd := congrArg (fun l => (l.map eventDelta).sum) hstamp
  simp only [stampBalances_map_delta, List.map_append, List.sum_append, List.map_cons,
    List.sum_cons, List.map_nil, List.sum_nil, add_zero] at hmapd
  have hperm := ((List.perm_insertionSort evLe
      ((List.insertionSort txLe (L.txs.filter fun t => inRangeDay none endOpt t.day)).map txEvent
        ++ ((dedupe_withdrawals_by_date
              (L.wds.filter fun w => inRangeDay none endOpt w.date)).filter
            fun w =>
              !(decide (withdrawal_actual_amount L w ≤ 0) &&
                decide (w.commission_rub ≤ 0))).map (wdEvent L))).map eventDelta).sum_eq
  simp only [List.map_append, List.sum_append] at hperm
  have htxsum : (((List.insertionSort txLe
        (L.txs.filter fun t => inRangeDay none endOpt t.day)).map txEvent).map eventDelta).sum
      = ((L.txs.filter fun t => inRangeDay none endOpt t.day).map fun t => t.amount_rub).sum := by
    rw [List.map_map]
    have h1 : (eventDelta ∘ txEvent) = fun t : Tx => t.amount_rub := funext fun t => rfl
    rw [h1]
    exact ((List.perm_insertionSort txLe _).map _).sum_eq
  have hwdsum : ((((dedupe_withdrawals_by_date
        (L.wds.filter fun w => inRangeDay none endOpt w.date)).filter
        fun w =>
          !(decide (withdrawal_actual_amount L w ≤ 0) && decide (w.commission_rub ≤ 0))).map
      (wdEvent L)).map eventDelta).sum
      = -((((dedupe_withdrawals_by_date
            (L.wds.filter fun w => inRangeDay none endOpt w.date)).filter
          fun w =>
            !(decide (withdrawal_actual_amount L w ≤ 0) && decide (w.commission_rub ≤ 0))).map
        fun w => withdrawal_actual_amount L w + w.commission_rub).sum) := by
    rw [List.map_map]
    have h1 : (eventDelta ∘ wdEvent L)
        = fun w : Wd => -(withdrawal_actual_amount L w + w.commission_rub) := funext fun w => rfl
    rw [h1]
    exact sum_map_neg _ _
  have hkeep := wd_sum_keep L
    (dedupe_withdrawals_by_date (L.wds.filter fun w => inRangeDay none endOpt w.date))
    (fun w hw => (List.mem_filter.mp (mem_dedupe hw)).1) htx hwdn hcm
  have hseed : card_balance_before L none = 0 := rfl
  rw [hseed] at hsplit
  simp only [card_range_totals]
  linarith [hsplit, hmapd, hperm, htxsum, hwdsum, hkeep]

theorem timeline_last_balance_eq_range_totals_witness :
    (∀ t ∈ (Ledger.mk [⟨1, 100, "A", 100, 0, ""⟩]
        [⟨1, 1, some (1, 200), 1, false, some 50, 10, ""⟩]).txs, 0 ≤ t.amount_rub) ∧
    (∀ w ∈ (Ledger.mk [⟨1, 100, "A", 100, 0, ""⟩]
        [⟨1, 1, some (1, 200), 1, false, some 50, 10, ""⟩]).wds, 0 ≤ w.withdrawn_rub.getD 0) ∧
    (∀ w ∈ (Ledger.mk [⟨1, 100, "A", 100, 0, ""⟩]
        [⟨1, 1, some (1, 200), 1, false, some 50, 10, ""⟩]).wds, 0 ≤ w.commission_rub) ∧
    card_events (Ledger.mk [⟨1, 100, "A", 100, 0, ""⟩]
        [⟨1, 1, some (1, 200), 1, false, some 50, 10, ""⟩]) none none none none
      = (⟨EvKind.wd, (1, 200), "", none, some 50, some 10, "", 40⟩ : Event) ::
        [⟨EvKind.tx, (1, 100), "A", some 100, none, none, "", 100⟩] ∧
    (⟨EvKind.wd, (1, 200), "", none, some 50, some 10, "", 40⟩ : Event).balance
      = (card_range_totals (Ledger.mk [⟨1, 100, "A", 100, 0, ""⟩]
          [⟨1, 1, some (1, 200), 1, false, some 50, 10, ""⟩]) none none).2.2.2 := by
  have h1 : ∀ t ∈ (Ledger.mk [⟨1, 100, "A", 100, 0, ""⟩]
      [⟨1, 1, some (1, 200), 1, false, some 50, 10, ""⟩]).txs, (0 : Rat) ≤ t.amount_rub := by
    intro t ht
    simp only [List.mem_singleton] at ht
    rw [ht]
    norm_num
  have h2 : ∀ w ∈ (Ledger.mk [⟨1, 100, "A", 100, 0, ""⟩]
      [⟨1, 1, some (1, 200), 1, false, some 50, 10, ""⟩]).wds,
      (0 : Rat) ≤ w.withdrawn_rub.getD 0 := by
    intro w hw
    simp only [List.mem_singleton] at hw
    rw [hw]
    norm_num
  have h3 : ∀ w ∈ (Ledger.mk [⟨1, 100, "A", 100, 0, ""⟩]
      [⟨1, 1, some (1, 200), 1, false, some 50, 10, ""⟩]).wds, (0 : Rat) ≤ w.commission_rub := by
    intro w hw
    simp only [List.mem_singleton] at hw
    rw [hw]
    norm_num
  have h4 : card_events (Ledger.mk [⟨1, 100, "A", 100, 0, ""⟩]
      [⟨1, 1, some (1, 200), 1, false, some 50, 10, ""⟩]) none none none none
      = (⟨EvKind.wd, (1, 200), "", none, some 50, some 10, "", 40⟩ : Event) ::
        [⟨EvKind.tx, (1, 100), "A", some 100, none, none, "", 100⟩] := by
    norm_num [card_events, stampBalances, eventDelta, txEvent, wdEvent, wdEventTime, kindMatches,
      queryMatches, inRangeDay, card_balance_before, dedupe_withdrawals_by_date, dedupeGo, wdGe,
      keyLe, wdKey, evLe, txLe, timeLe, withdrawal_actual_amount, should_have, closing_before,
      net_before, received_today, lastFullDate, maxDate, inWindow]
  exact ⟨h1, h2, h3, h4,
    timeline_last_balance_eq_range_totals _ none _ _ h1 h2 h3 h4⟩

/-- Python `str.replace(old, new)` for single characters. -/
def replaceChar (a b : Char) (s : String) : String :=
  String.mk (s.data.map fun c => if c == a then b else c)

/-- Python `str.replace(old, "")` for a single character. -/
def stripChar (a : Char) (s : String) : String :=
  String.mk (s.data.filter fun c => !(c == a))

def digitsVal (ds : List Char) : Nat :=
  ds.foldl (fun a c => a * 10 + (c.toNat - 48)) 0

def allDigits (ds : List Char) : Bool :=
  ds.all fun c => c.isDigit

/-- The plain decimal-literal fragment of Python `Decimal(raw)`: digits
with at most one dot and at least one digit; exponent and special forms
are out of scope of the inputs the view handles. -/
def parseUnsigned (s : List Char) : Option Rat :=
  match s.splitOn '.' with
  | [ip] => if !ip.isEmpty && allDigits ip then some (digitsVal ip : Rat) else none
  | [ip, fp] =>
    if ip.isEmpty && fp.isEmpty then none
    else if allDigits ip && allDigits fp then
      some ((digitsVal ip : Rat) + (digitsVal fp : Rat) / ((10 : Rat) ^ fp.length))
    else none
  | _ => none

/-- `Decimal(raw)` on an optionally signed plain literal. -/
def parseDecimalLit (s : String) : Option Rat :=
  match s.data with
  | [] => none
  | c :: rest =>
    if c == '-' then (parseUnsigned rest).map fun q => -q
    else if c == '+' then parseUnsigned rest
    else parseUnsigned (c :: rest)

/-- `parse_decimal(value, field)` inside `withdraw_today_save`
(`core/views.py:854-861`): `None`/blank gives `None`; otherwise spaces are
stripped, commas become dots and the result must parse as a decimal, else
a field error is raised. -/
def parse_decimal (value : Option String) (field : String) : Except String (Option Rat) :=
  match value with
  | none => Except.ok none
  | some s =>
    if s = "" then Except.ok none
    else
      match parseDecimalLit (replaceChar ',' '.' (stripChar ' ' s)) with
      | some q => Except.ok (some q)
      | none => Except.error ("Invalid " ++ field)

/-- A `withdraw_today_save` request (`core/views.py:829-885`).  The date,
timestamp and timezone-offset fields are represented by their parse
results under `_parse_user_date`, `_parse_user_datetime` and `int()`:
`dateField = none` is a missing or empty date, `some none` a present but
unparseable one; `tsField = none` an absent or unparseable timestamp;
`tzOffset = none` a missing or non-integer offset.  The numeric fields
stay raw strings; `none` models an absent POST key. -/
structure SaveRequest where
  dateField : Option (Option Int)
  cardId : Option Int
  tsField : Option (Int × Int)
  tzOffset : Option Int
  fullyWithdrawn : Option String
  withdrawnField : Option String
  commissionField : Option String
  noteField : Option String
deriving DecidableEq, Repr

/-- `_apply_tz_offset` (`core/views.py:210-221`): interpret the naive
timestamp at the fixed offset `-offset` minutes and convert to UTC,
i.e. add `offset` minutes. -/
def applyTzOffset (ts : Int × Int) (off : Int) : Int × Int :=
  ((ts.1 * 86400 + ts.2 + off * 60).ediv 86400, (ts.1 * 86400 + ts.2 + off * 60).emod 86400)

/-- A `withdraw_today_save` response: `ok` with the saved row id, or an
error message with no write. -/
inductive SaveResp
  | ok (id : Int)
  | err (msg : String)
deriving DecidableEq, Repr

/-- The `existing.first()` lookup of `withdraw_today_save`
(`core/views.py:841-842`): the row for `(card, day)` that is first under
`order_by("-timestamp", "-id")`. -/
def load_existing (db : List Wd) (day cid : Int) : Option Wd :=
  (List.insertionSort wdGe (db.filter fun w => w.date == day && w.card_id == cid)).head?

/-- The row the upsert edits (`core/views.py:842-844`): the existing row,
or a fresh `Withdrawal(date=day, card_id=card_id)`. -/
def base_row (db : List Wd) (fid day cid : Int) : Wd :=
  match load_existing db day cid with
  | some w => w
  | none => ⟨fid, cid, none, day, false, none, 0, ""⟩

/-- Timestamp application (`core/views.py:846-852`): only when both the
timestamp and the offset parsed, set the UTC timestamp and overwrite the
row's date with the naive timestamp's calendar date. -/
def apply_ts (req : SaveRequest) (w : Wd) : Wd :=
  match req.tsField, req.tzOffset with
  | some ts, some off => { w with timestamp := some (applyTzOffset ts off), date := ts.1 }
  | _, _ => w

/-- Flag and amount assignment (`core/views.py:863-873`): the full flag is
always set explicitly from the input; when full the stored amount is
cleared to null, otherwise the withdrawn field is parsed (null on blank),
with a field error on malformed input. -/
def set_amounts (req : SaveRequest) (w : Wd) : Except String Wd :=
  let full := req.fullyWithdrawn == some "true"
  let w2 := { w with fully_withdrawn := full }
  if full then Except.ok { w2 with withdrawn_rub := none }
  else
    match req.withdrawnField with
    | none => Except.ok { w2 with withdrawn_rub := none }
    | some v =>
      if v = "" then Except.ok { w2 with withdrawn_rub := none }
      else
        match parse_decimal (some v) "withdrawn" with
        | Except.ok q => Except.ok { w2 with withdrawn_rub := q }
        | Except.error e => Except.error e

/-- `withdraw_today_save(request)` (`core/views.py:829-885`) as a
transformer of the stored withdrawal table: the response together with the
table after the request.  `freshId` is the primary key the store would
assign to a newly created row.  `wd.save()` runs only after every parse
succeeded; an error path returns the table unchanged. -/
def withdraw_today_save (db : List Wd) (freshId : Int) (req : SaveRequest) :
    SaveResp × List Wd :=
  match req.dateField, req.cardId with
  | none, _ => (SaveResp.err "Missing date or card_id", db)
  | _, none => (SaveResp.err "Missing date or card_id", db)
  | some parsedDay, some cid =>
    match parsedDay with
    | none => (SaveResp.err "Bad date format", db)
    | some day =>
      match set_amounts req (apply_ts req (base_row db freshId day cid)) with
      | Except.error e => (SaveResp.err e, db)
      | Except.ok wd3 =>
        match parse_decimal req.commissionField "commission" with
        | Except.error e => (SaveResp.err e, db)
        | Except.ok comm =>
          let wd4 := { wd3 with commission_rub := comm.getD 0, note := req.noteField.getD "" }
          match load_existing db day cid with
          | some w => (SaveResp.ok wd4.id, db.map fun r => if r.id == w.id then wd4 else r)
          | none => (SaveResp.ok wd4.id, db ++ [wd4])



theorem load_existing_mem {db : List Wd} {day cid : Int} {w : Wd}
    (h : load_existing db day cid = some w) : w ∈ db ∧ w.date = day ∧ w.card_id = cid := by
  unfold load_existing at h
  have hw : w ∈ List.insertionSort wdGe (db.filter fun w => w.date == day && w.card_id == cid) :=
    List.mem_of_mem_head? (Option.mem_def.mpr h)
  have hw2 := (List.mem_insertionSort wdGe).mp hw
  have hw3 := List.mem_filter.mp hw2
  have hc := hw3.2
  simp only [Bool.and_eq_true, beq_iff_eq] at hc
  exact ⟨hw3.1, hc.1, hc.2⟩

theorem base_row_date (db : List Wd) (fid day cid : Int) : (base_row db fid day cid).date = day := by
  unfold base_row
  rcases h : load_existing db day cid with _ | w
  · rfl
  · exact (load_existing_mem h).2.1

theorem apply_ts_facts (req : SaveRequest) (w : Wd) :
    (apply_ts req w).id = w.id ∧
    (apply_ts req w).date = (match req.tsField, req.tzOffset with
      | some ts, some _ => ts.1
      | _, _ => w.date) := by
  unfold apply_ts
  rcases req.tsField with _ | ts <;> rcases req.tzOffset with _ | off <;> exact ⟨rfl, rfl⟩

theorem set_amounts_ok {req : SaveRequest} {w w3 : Wd} (h : set_amounts req w = Except.ok w3) :
    w3.id = w.id ∧ w3.date = w.date ∧
    w3.fully_withdrawn = (req.fullyWithdrawn == some "true") ∧
    ((req.fullyWithdrawn == some "true") = true → w3.withdrawn_rub = none) := by
  simp only [set_amounts] at h
  by_cases hf : (req.fullyWithdrawn == some "true") = true
  · rw [if_pos hf] at h
    injection h with h1
    rw [← h1, hf]
    exact ⟨rfl, rfl, rfl, fun _ => rfl⟩
  · rw [if_neg hf] at h
    have hfv : ∀ hcontra : (req.fullyWithdrawn == some "true") = true, False := fun hc => hf hc
    rcases hwf : req.withdrawnField with _ | v
    · simp only [hwf] at h
      injection h with h1
      rw [← h1]
      refine ⟨rfl, rfl, rfl, fun hc => absurd hc hf⟩
    · simp only [hwf] at h
      by_cases hv : v = ""
      · rw [if_pos hv] at h
        injection h with h1
        rw [← h1]
        exact ⟨rfl, rfl, rfl, fun hc => absurd hc hf⟩
      · rw [if_neg hv] at h
        rcases hp : parse_decimal (some v) "withdrawn" with e | q
        · rw [hp] at h
          exact absurd h (by simp)
        · rw [hp] at h
          injection h with h1
          rw [← h1]
          exact ⟨rfl, rfl, rfl, fun hc => absurd hc hf⟩

theorem withdraw_save_err (db : List Wd) (fid : Int) (req : SaveRequest) (msg : String)
    (h : (withdraw_today_save db fid req).1 = SaveResp.err msg) :
    (withdraw_today_save db fid req).2 = db := by
  unfold withdraw_today_save at h ⊢
  rcases hdf : req.dateField with _ | pd <;> rcases hci : req.cardId with _ | cid <;>
    simp only [hdf, hci] at h ⊢ <;> try rfl
  rcases pd with _ | day
  · rfl
  rcases h3 : set_amounts req (apply_ts req (base_row db fid day cid)) with e | wd3 <;>
    simp only [h3] at h ⊢ <;> try rfl
  rcases hc : parse_decimal req.commissionField "commission" with e | comm <;>
    simp only [hc] at h ⊢ <;> try rfl
  rcases he : load_existing db day cid with _ | w <;> simp only [he] at h ⊢ <;> cases h

theorem withdraw_save_ok (db : List Wd) (fid : Int) (req : SaveRequest) {day cid i : Int}
    (hdf : req.dateField = some (some day)) (hci : req.cardId = some cid)
    (hok : (withdraw_today_save db fid req).1 = SaveResp.ok i) :
    ∃ row ∈ (withdraw_today_save db fid req).2,
      row.id = i ∧
      row.fully_withdrawn = (req.fullyWithdrawn == some "true") ∧
      ((req.fullyWithdrawn == some "true") = true → row.withdrawn_rub = none) ∧
      row.date = (match req.tsField, req.tzOffset with
        | some ts, some _ => ts.1
        | _, _ => day) := by
  unfold withdraw_today_save at hok ⊢
  simp only [hdf, hci] at hok ⊢
  rcases h3 : set_amounts req (apply_ts req (base_row db fid day cid)) with e | wd3 <;>
    simp only [h3] at hok ⊢
  · cases hok
  rcases hc : parse_decimal req.commissionField "commission" with e | comm <;>
    simp only [hc] at hok ⊢
  · cases hok
  obtain ⟨hid, hdate, hflag, hfull⟩ := set_amounts_ok h3
  have hts := apply_ts_facts req (base_row db fid day cid)
  rcases he : load_existing db day cid with _ | w <;> simp only [he] at hok ⊢ <;>
    injection hok with hok1
  · refine ⟨{ wd3 with commission_rub := comm.getD 0, note := req.noteField.getD "" },
      List.mem_append_right _ (List.mem_singleton.mpr rfl), hok1, hflag, hfull, ?_⟩
    show wd3.date = _
    rw [hdate, hts.2, base_row_date]
  · refine ⟨{ wd3 with commission_rub := comm.getD 0, note := req.noteField.getD "" },
      ?_, hok1, hflag, hfull, ?_⟩
    · refine List.mem_map.mpr ⟨w, (load_existing_mem he).1, ?_⟩
      rw [if_pos (beq_self_eq_true w.id)]
    · show wd3.date = _
      rw [hdate, hts.2, base_row_date]

theorem set_amounts_bad {req : SaveRequest} (w : Wd) {v e : String}
    (hfw : (req.fullyWithdrawn == some "true") = false)
    (hwf : req.withdrawnField = some v) (hv : ¬(v = ""))
    (hp : parse_decimal (some v) "withdrawn" = Except.error e) :
    set_amounts req w = Except.error e := by
  simp only [set_amounts, hfw, hwf, hp, Bool.false_eq_true, if_false, if_neg hv]

theorem withdraw_save_bad_withdrawn (db : List Wd) (fid : Int) (req : SaveRequest)
    {day cid : Int} {v e : String}
    (hdf : req.dateField = some (some day)) (hci : req.cardId = some cid)
    (hfw : (req.fullyWithdrawn == some "true") = false)
    (hwf : req.withdrawnField = some v) (hv : ¬(v = ""))
    (hp : parse_decimal (some v) "withdrawn" = Except.error e) :
    (withdraw_today_save db fid req).1 = SaveResp.err e := by
  unfold withdraw_today_save
  simp only [hdf, hci, set_amounts_bad _ hfw hwf hv hp]

theorem withdraw_save_bad_comm (db : List Wd) (fid : Int) (req : SaveRequest) {e : String}
    (hp : parse_decimal req.commissionField "commission" = Except.error e) :
    ∀ i, (withdraw_today_save db fid req).1 ≠ SaveResp.ok i := by
  intro i hok
  unfold withdraw_today_save at hok
  rcases hdf : req.dateField with _ | pd <;> rcases hci : req.cardId with _ | cid <;>
    simp only [hdf, hci] at hok <;> try cases hok
  rcases pd with _ | day
  · cases hok
  rcases h3 : set_amounts req (apply_ts req (base_row db fid day cid)) with e' | wd3 <;>
    simp only [h3] at hok
  · cases hok
  · rw [hp] at hok
    cases hok

/-- C9: every error response of the withdrawal upsert leaves the stored
table exactly as it was; a malformed withdrawn field (after comma/space
normalisation) or a malformed commission field produces a field-level
error and no write; and a successful upsert saves a row whose full flag
equals the posted flag, with the stored amount cleared to null whenever
the flag is set. -/
theorem withdraw_save_spec (db : List Wd) (fid : Int) (req : SaveRequest) :
    (∀ msg, (withdraw_today_save db fid req).1 = SaveResp.err msg →
      (withdraw_today_save db fid req).2 = db) ∧
    (∀ day cid : Int, ∀ v e : String, req.dateField = some (some day) →
      req.cardId = some cid → (req.fullyWithdrawn == some "true") = false →
      req.withdrawnField = some v → ¬(v = "") →
      parse_decimal (some v) "withdrawn" = Except.error e →
      (withdraw_today_save db fid req).1 = SaveResp.err e ∧
        (withdraw_today_save db fid req).2 = db) ∧
    (∀ e : String, parse_decimal req.commissionField "commission" = Except.error e →
      (∀ i, (withdraw_today_save db fid req).1 ≠ SaveResp.ok i) ∧
        (withdraw_today_save db fid req).2 = db) ∧
    (∀ i, (withdraw_today_save db fid req).1 = SaveResp.ok i →
      ∃ row ∈ (withdraw_today_save db fid req).2,
        row.id = i ∧ row.fully_withdrawn = (req.fullyWithdrawn == some "true") ∧
        ((req.fullyWithdrawn == some "true") = true → row.withdrawn_rub = none)) := by
  refine ⟨withdraw_save_err db fid req, ?_, ?_, ?_⟩
  · intro day cid v e hdf hci hfw hwf hv hp
    have h1 := withdraw_save_bad_withdrawn db fid req hdf hci hfw hwf hv hp
    exact ⟨h1, withdraw_save_err db fid req e h1⟩
  · intro e hp
    refine ⟨withdraw_save_bad_comm db fid req hp, ?_⟩
    rcases hr : (withdraw_today_save db fid req).1 with i | msg
    · exact absurd hr (withdraw_save_bad_comm db fid req hp i)
    · exact withdraw_save_err db fid req msg hr
  · intro i hok
    have hok2 := hok
    unfold withdraw_today_save at hok2
    rcases hdf : req.dateField with _ | pd <;> rcases hci : req.cardId with _ | cid <;>
      simp only [hdf, hci] at hok2 <;> try cases hok2
    rcases pd with _ | day
    · simp at hok2
    · obtain ⟨row, hmem, hid, hflag, hfull, _⟩ := withdraw_save_ok db fid req hdf hci hok
      exact ⟨row, hmem, hid, hflag, hfull⟩

theorem withdraw_save_spec_witness :
    ((⟨some (some 3), some 1, none, none, none, some "1,5x", none, none⟩ :
        SaveRequest).fullyWithdrawn == some "true") = false ∧
    parse_decimal (some "1,5x") "withdrawn" = Except.error "Invalid withdrawn" ∧
    (withdraw_today_save [] 7
        ⟨some (some 3), some 1, none, none, none, some "1,5x", none, none⟩).1
      = SaveResp.err "Invalid withdrawn" ∧
    (withdraw_today_save [] 7
        ⟨some (some 3), some 1, none, none, none, some "1,5x", none, none⟩).2 = [] :=
  ⟨rfl, rfl,
    ((withdraw_save_spec [] 7
        ⟨some (some 3), some 1, none, none, none, some "1,5x", none, none⟩).2.1
      3 1 "1,5x" "Invalid withdrawn" rfl rfl rfl rfl (by decide) rfl).1,
    ((withdraw_save_spec [] 7
        ⟨some (some 3), some 1, none, none, none, some "1,5x", none, none⟩).2.1
      3 1 "1,5x" "Invalid withdrawn" rfl rfl rfl rfl (by decide) rfl).2⟩

/-- C10 is false as stated: a request whose timestamp field parses but
whose timezone offset is missing keeps the posted date 3 rather than the
timestamp's calendar date 5, because `_apply_tz_offset` returns `None`
for an unparseable offset and the date assignment is skipped. -/
theorem withdraw_save_date_counterexample :
    (⟨some (some 3), some 1, some (5, 3600), none, none, none, none, none⟩ :
        SaveRequest).tsField = some (5, 3600) ∧
    withdraw_today_save [] 7
        ⟨some (some 3), some 1, some (5, 3600), none, none, none, none, none⟩
      = (SaveResp.ok 7, [⟨7, 1, none, 3, false, none, 0, ""⟩]) ∧
    (3 : Int) ≠ 5 := by
  refine ⟨rfl, by decide, by decide⟩

/-- C10 (amended): on a successful upsert the saved row's date is the
calendar date of the submitted timestamp exactly when both the timestamp
and the timezone offset parse — the row can then land on a different
(card, day) key than the posted date; when either is absent or
unparseable the posted date is kept. -/
theorem withdraw_save_date_spec (db : List Wd) (fid : Int) (req : SaveRequest)
    {day cid i : Int}
    (hdf : req.dateField = some (some day)) (hci : req.cardId = some cid)
    (hok : (withdraw_today_save db fid req).1 = SaveResp.ok i) :
    (∀ ts : Int × Int, ∀ off : Int, req.tsField = some ts → req.tzOffset = some off →
      ∃ row ∈ (withdraw_today_save db fid req).2, row.id = i ∧ row.date = ts.1) ∧
    ((req.tsField = none ∨ req.tzOffset = none) →
      ∃ row ∈ (withdraw_today_save db fid req).2, row.id = i ∧ row.date = day) := by
  obtain ⟨row, hmem, hid, _, _, hdate⟩ := withdraw_save_ok db fid req hdf hci hok
  constructor
  · intro ts off hts hoff
    refine ⟨row, hmem, hid, ?_⟩
    rw [hdate]
    simp only [hts, hoff]
  · intro hcase
    refine ⟨row, hmem, hid, ?_⟩
    rw [hdate]
    rcases hts : req.tsField with _ | ts <;> rcases hoff : req.tzOffset with _ | off <;>
      simp only [hts, hoff] <;> try rfl
    rcases hcase with hc | hc
    · rw [hts] at hc
      exact Option.noConfusion hc
    · rw [hoff] at hc
      exact Option.noConfusion hc

theorem withdraw_save_date_spec_witness :
    (withdraw_today_save [] 7
        ⟨some (some 3), some 1, some (5, 3600), some 180, none, none, none, none⟩).1
      = SaveResp.ok 7 ∧
    ∃ row ∈ (withdraw_today_save [] 7
        ⟨some (some 3), some 1, some (5, 3600), some 180, none, none, none, none⟩).2,
      row.id = 7 ∧ row.date = (5, 3600).1 :=
  ⟨by decide,
    (withdraw_save_date_spec [] 7
        ⟨some (some 3), some 1, some (5, 3600), some 180, none, none, none, none⟩
        rfl rfl (by decide)).1 (5, 3600) 180 rfl rfl⟩
